import Mathlib

/-!
# Verification of the `byte-array-blob` framing codec

Shallow embedding of `src/src/lib.rs`: bytes are `Nat` values (< 256 for real
`u8` data), byte slices are `List Nat`, and the fallible decoder returns
`Option (Except BlobReadError _)` where `none` models a Rust panic (the
out-of-bounds slice index `blob[idx_start..idx_start+4]` aborts the process).
Native byte order is modelled as little-endian, the order pinned by the
documented examples (`[8,0,0,0]` decodes to the header value `8`).
-/

namespace ByteArrayBlob

/-- Maximal `u32` value, `u32::MAX` in the source. -/
def u32MAX : Nat := 4294967295

/-- Embeds `enum BlobReadError { InvalidEncodedIndex(usize), TooLarge }`. -/
inductive BlobReadError where
  | InvalidEncodedIndex (idx : Nat)
  | TooLarge
deriving DecidableEq, Repr

/-- Embeds `u32::from_ne_bytes` applied to a 4-byte little-endian slice.
`b.getD k 0` is byte `k`; callers only apply this to lists of length 4. -/
def u32_from_ne_bytes (b : List Nat) : Nat :=
  b.getD 0 0 + 256 * b.getD 1 0 + 65536 * b.getD 2 0 + 16777216 * b.getD 3 0

/-- Embeds `(n as u32).to_ne_bytes()` (little-endian): the truncating cast
`as u32` is reflected by each byte being reduced mod 256 after shifting. -/
def u32_to_ne_bytes (n : Nat) : List Nat :=
  [n % 256, n / 256 % 256, n / 65536 % 256, n / 16777216 % 256]

/-- The 4-byte header read `u32::from_ne_bytes(blob[i..i+4])` performed by the
decoder loop at position `i`. -/
def header_at (blob : List Nat) (i : Nat) : Nat :=
  u32_from_ne_bytes ((blob.drop i).take 4)

/-- The body of the decoder loop (`while idx_end < blob.len() { ... }`) of
`blob_to_byte_arrays`.  At every loop head of the source, `idx_start` equals
`idx_end` (both start at 0, and after each iteration `idx_start = idx_end`),
so the single parameter `i` is that shared value.  Each iteration reads the
unchecked slice `blob[idx_start..idx_start+4]` — if fewer than 4 bytes remain
this panics, modelled by `none`.  Otherwise `idx_end` becomes the decoded
header and is validated (`idx_end > blob.len() || idx_end < idx_start` after
`idx_start += 4`); the source pushes `blob[idx_start..idx_end]` onto an
accumulator and loops, which is modelled by consing the slice onto the result
of the recursive call. -/
def readSlices (blob : List Nat) (i : Nat) :
    Option (Except BlobReadError (List (List Nat))) :=
  if i < blob.length then
    if i + 4 ≤ blob.length then
      let idx_end := header_at blob i
      if idx_end > blob.length ∨ idx_end < i + 4 then
        some (Except.error (BlobReadError.InvalidEncodedIndex idx_end))
      else
        match readSlices blob idx_end with
        | some (Except.ok rest) =>
            some (Except.ok (((blob.drop (i + 4)).take (idx_end - (i + 4))) :: rest))
        | r => r
    else none
  else some (Except.ok [])
termination_by blob.length - i
decreasing_by
  simp only [not_or, not_lt] at *
  omega

/-- Embeds `pub fn blob_to_byte_arrays(blob: &[u8]) -> Result<Vec<&[u8]>, BlobReadError>`:
the up-front `TooLarge` guard followed by the decoding loop. -/
def blob_to_byte_arrays (blob : List Nat) :
    Option (Except BlobReadError (List (List Nat))) :=
  if blob.length > u32MAX then some (Except.error BlobReadError.TooLarge)
  else readSlices blob 0

/-- The encoder loop of `byte_arrays_to_blob`, with the running cumulative
offset `idx_end` made an explicit parameter: for each slice the source does
`idx_end += 4 + byte_arr.len()`, appends `(idx_end as u32).to_ne_bytes()` and
then the bytes of the slice. -/
def blobAppend (idx_end : Nat) : List (List Nat) → List Nat
  | [] => []
  | byte_arr :: rest =>
      u32_to_ne_bytes (idx_end + 4 + byte_arr.length) ++ byte_arr ++
        blobAppend (idx_end + 4 + byte_arr.length) rest

/-- Embeds `pub fn byte_arrays_to_blob(bytes_2d: &[&[u8]]) -> Vec<u8>`. -/
def byte_arrays_to_blob (bytes_2d : List (List Nat)) : List Nat :=
  blobAppend 0 bytes_2d

/-- Number of executions of the decoder loop body on a given input, counted by
the same recursion as `readSlices`: an iteration that errors, panics, or reads
the final frame counts as one; the loop exits (0 further iterations) once the
running index reaches the blob length. -/
def loopIters (blob : List Nat) (i : Nat) : Nat :=
  if i < blob.length then
    if i + 4 ≤ blob.length then
      let idx_end := header_at blob i
      if idx_end > blob.length ∨ idx_end < i + 4 then 1
      else 1 + loopIters blob idx_end
    else 1
  else 0
termination_by blob.length - i
decreasing_by
  simp only [not_or, not_lt] at *
  omega

/-! ## Basic lemmas about the byte conversions -/

theorem u32_to_ne_bytes_length (n : Nat) : (u32_to_ne_bytes n).length = 4 := rfl

theorem u32_from_to_ne_bytes (n : Nat) :
    u32_from_ne_bytes (u32_to_ne_bytes n) = n % 4294967296 := by
  simp only [u32_from_ne_bytes, u32_to_ne_bytes, List.getD_cons_zero,
    List.getD_cons_succ]
  omega

theorem u32_to_from_ne_bytes (b0 b1 b2 b3 : Nat) (h0 : b0 < 256) (h1 : b1 < 256)
    (h2 : b2 < 256) (h3 : b3 < 256) :
    u32_to_ne_bytes (u32_from_ne_bytes [b0, b1, b2, b3]) = [b0, b1, b2, b3] := by
  simp only [u32_from_ne_bytes, u32_to_ne_bytes, List.getD_cons_zero,
    List.getD_cons_succ, List.cons.injEq, and_true]
  refine ⟨?_, ?_, ?_, ?_⟩ <;> omega

/-- Reading the header planted by the encoder returns the written offset
reduced mod `2^32` (the truncating `as u32` cast). -/
theorem header_at_append (pre rest : List Nat) (e : Nat) :
    header_at (pre ++ (u32_to_ne_bytes e ++ rest)) pre.length = e % 4294967296 := by
  rw [header_at, List.drop_left, List.take_left' (u32_to_ne_bytes_length e),
    u32_from_to_ne_bytes]

/-- A list of length 4 is a literal 4-element list. -/
theorem four_bytes_eq (b : List Nat) (h : b.length = 4) :
    ∃ b0 b1 b2 b3, b = [b0, b1, b2, b3] := by
  match b, h with
  | [b0, b1, b2, b3], _ => exact ⟨b0, b1, b2, b3, rfl⟩

/-! ## Step lemmas for the decoder loop -/

theorem readSlices_exit (blob : List Nat) (i : Nat) (h : ¬ i < blob.length) :
    readSlices blob i = some (Except.ok []) := by
  rw [readSlices.eq_def, if_neg h]

theorem readSlices_panic (blob : List Nat) (i : Nat) (h1 : i < blob.length)
    (h2 : ¬ i + 4 ≤ blob.length) :
    readSlices blob i = none := by
  rw [readSlices.eq_def, if_pos h1, if_neg h2]

theorem readSlices_step (blob : List Nat) (i : Nat) (h1 : i < blob.length)
    (h2 : i + 4 ≤ blob.length) :
    readSlices blob i =
      if header_at blob i > blob.length ∨ header_at blob i < i + 4 then
        some (Except.error (BlobReadError.InvalidEncodedIndex (header_at blob i)))
      else
        match readSlices blob (header_at blob i) with
        | some (Except.ok rest) =>
            some (Except.ok
              (((blob.drop (i + 4)).take (header_at blob i - (i + 4))) :: rest))
        | r => r := by
  rw [readSlices.eq_def, if_pos h1, if_pos h2]

theorem readSlices_invalid (blob : List Nat) (i : Nat) (h1 : i < blob.length)
    (h2 : i + 4 ≤ blob.length)
    (h3 : header_at blob i > blob.length ∨ header_at blob i < i + 4) :
    readSlices blob i =
      some (Except.error (BlobReadError.InvalidEncodedIndex (header_at blob i))) := by
  rw [readSlices_step blob i h1 h2, if_pos h3]

theorem readSlices_cont (blob : List Nat) (i : Nat) (h1 : i < blob.length)
    (h2 : i + 4 ≤ blob.length)
    (h3 : ¬ (header_at blob i > blob.length ∨ header_at blob i < i + 4)) :
    readSlices blob i =
      Option.map
        (Except.map (List.cons ((blob.drop (i + 4)).take (header_at blob i - (i + 4)))))
        (readSlices blob (header_at blob i)) := by
  rw [readSlices_step blob i h1 h2, if_neg h3]
  cases hr : readSlices blob (header_at blob i) with
  | none => rfl
  | some r => cases r <;> rfl

/-! ## Encoder length -/

theorem blobAppend_length (bytes_2d : List (List Nat)) : ∀ e : Nat,
    (blobAppend e bytes_2d).length =
      (bytes_2d.map List.length).sum + 4 * bytes_2d.length := by
  induction bytes_2d with
  | nil => intro e; simp [blobAppend]
  | cons a rest ih =>
      intro e
      simp only [blobAppend, List.length_append, u32_to_ne_bytes_length, ih,
        List.map_cons, List.sum_cons, List.length_cons]
      ring

/-! ## The decoder loop never produces `TooLarge` -/

theorem readSlices_ne_tooLarge (blob : List Nat) : ∀ n i, blob.length - i ≤ n →
    readSlices blob i ≠ some (Except.error BlobReadError.TooLarge) := by
  intro n
  induction n with
  | zero =>
      intro i h
      rw [readSlices_exit blob i (by omega)]
      simp
  | succ n ih =>
      intro i h
      by_cases h1 : i < blob.length
      · by_cases h2 : i + 4 ≤ blob.length
        · by_cases h3 : header_at blob i > blob.length ∨ header_at blob i < i + 4
          · rw [readSlices_invalid blob i h1 h2 h3]; simp
          · rw [readSlices_cont blob i h1 h2 h3]
            have hrec := ih (header_at blob i) (by push_neg at h3; omega)
            cases hr : readSlices blob (header_at blob i) with
            | none => simp
            | some r =>
                cases r with
                | ok rest => simp [Except.map]
                | error e =>
                    rw [hr] at hrec
                    simp only [Option.map_some', Except.map]
                    intro hc
                    exact hrec (by simpa using hc)
        · rw [readSlices_panic blob i h1 h2]
          exact fun hc => Option.noConfusion hc
      · rw [readSlices_exit blob i h1]; simp

/-! ## Total length of a successful decode -/

theorem readSlices_ok_length (blob : List Nat) : ∀ n i arrs, blob.length - i ≤ n →
    i ≤ blob.length → readSlices blob i = some (Except.ok arrs) →
    i + 4 * arrs.length + (arrs.map List.length).sum = blob.length := by
  intro n
  induction n with
  | zero =>
      intro i arrs h hle hok
      rw [readSlices_exit blob i (by omega)] at hok
      obtain rfl : arrs = [] := by simpa using hok.symm
      simp
      omega
  | succ n ih =>
      intro i arrs h hle hok
      by_cases h1 : i < blob.length
      · by_cases h2 : i + 4 ≤ blob.length
        · by_cases h3 : header_at blob i > blob.length ∨ header_at blob i < i + 4
          · rw [readSlices_invalid blob i h1 h2 h3] at hok
            simp at hok
          · rw [readSlices_cont blob i h1 h2 h3] at hok
            push_neg at h3
            obtain ⟨hup, hlo⟩ := h3
            cases hr : readSlices blob (header_at blob i) with
            | none => rw [hr] at hok; simp at hok
            | some r =>
                cases r with
                | error e => rw [hr] at hok; simp [Except.map] at hok
                | ok rest =>
                    rw [hr] at hok
                    simp only [Option.map_some', Except.map, Option.some.injEq,
                      Except.ok.injEq] at hok
                    have hrec := ih (header_at blob i) rest (by omega) hup hr
                    have hslice :
                        ((blob.drop (i + 4)).take (header_at blob i - (i + 4))).length =
                          header_at blob i - (i + 4) := by
                      rw [List.length_take, List.length_drop]
                      omega
                    subst hok
                    simp only [List.length_cons, List.map_cons, List.sum_cons, hslice]
                    omega
        · rw [readSlices_panic blob i h1 h2] at hok
          exact Option.noConfusion hok
      · rw [readSlices_exit blob i h1] at hok
        obtain rfl : arrs = [] := by simpa using hok.symm
        simp
        omega

/-! ## Decoding one encoded frame -/

/-- On a blob that carries a well-formed frame at position `pre.length`
(header `e` planted by the encoder, body `body`), the decoder loop reads that
frame and continues at `e`. -/
theorem readSlices_frame (pre body tail : List Nat) (e : Nat)
    (he : e = pre.length + 4 + body.length)
    (hmax : (pre ++ (u32_to_ne_bytes e ++ (body ++ tail))).length ≤ u32MAX) :
    readSlices (pre ++ (u32_to_ne_bytes e ++ (body ++ tail))) pre.length =
      Option.map (Except.map (List.cons body))
        (readSlices (pre ++ (u32_to_ne_bytes e ++ (body ++ tail))) e) := by
  have hlen : (pre ++ (u32_to_ne_bytes e ++ (body ++ tail))).length =
      e + tail.length := by
    simp only [List.length_append, u32_to_ne_bytes_length]
    omega
  have hmax' : e + tail.length ≤ 4294967295 := by
    rw [← hlen]
    simpa [u32MAX] using hmax
  have h1 : pre.length < (pre ++ (u32_to_ne_bytes e ++ (body ++ tail))).length := by
    rw [hlen]; omega
  have h2 : pre.length + 4 ≤ (pre ++ (u32_to_ne_bytes e ++ (body ++ tail))).length := by
    rw [hlen]; omega
  have hheader :
      header_at (pre ++ (u32_to_ne_bytes e ++ (body ++ tail))) pre.length = e := by
    rw [header_at_append]
    omega
  have h3 : ¬ (header_at (pre ++ (u32_to_ne_bytes e ++ (body ++ tail))) pre.length >
        (pre ++ (u32_to_ne_bytes e ++ (body ++ tail))).length ∨
      header_at (pre ++ (u32_to_ne_bytes e ++ (body ++ tail))) pre.length <
        pre.length + 4) := by
    rw [hheader, hlen]
    omega
  have hslice :
      (((pre ++ (u32_to_ne_bytes e ++ (body ++ tail)))).drop (pre.length + 4)).take
        (e - (pre.length + 4)) = body := by
    have hrw : pre ++ (u32_to_ne_bytes e ++ (body ++ tail)) =
        (pre ++ u32_to_ne_bytes e) ++ (body ++ tail) := by
      rw [List.append_assoc]
    rw [hrw, List.drop_left' (by simp [u32_to_ne_bytes_length]),
      List.take_left' (by omega)]
  rw [readSlices_cont _ _ h1 h2 h3, hheader, hslice]

/-! ## Round-trip: decoding an encoded blob -/

theorem readSlices_blobAppend (bytes_2d : List (List Nat)) : ∀ pre : List Nat,
    (pre ++ blobAppend pre.length bytes_2d).length ≤ u32MAX →
    readSlices (pre ++ blobAppend pre.length bytes_2d) pre.length =
      some (Except.ok bytes_2d) := by
  induction bytes_2d with
  | nil =>
      intro pre h
      simp only [blobAppend, List.append_nil]
      exact readSlices_exit pre pre.length (by omega)
  | cons a rest ih =>
      intro pre h
      simp only [blobAppend, List.append_assoc] at h ⊢
      rw [readSlices_frame pre a (blobAppend (pre.length + 4 + a.length) rest)
        (pre.length + 4 + a.length) rfl h]
      have hplen : (pre ++ (u32_to_ne_bytes (pre.length + 4 + a.length) ++ a)).length
          = pre.length + 4 + a.length := by
        simp only [List.length_append, u32_to_ne_bytes_length]
        omega
      have hmax2 : ((pre ++ (u32_to_ne_bytes (pre.length + 4 + a.length) ++ a)) ++
          blobAppend
            ((pre ++ (u32_to_ne_bytes (pre.length + 4 + a.length) ++ a)).length)
            rest).length ≤ u32MAX := by
        rw [hplen]
        simpa only [List.append_assoc] using h
      have hih := ih (pre ++ (u32_to_ne_bytes (pre.length + 4 + a.length) ++ a)) hmax2
      rw [hplen] at hih
      simp only [List.append_assoc] at hih
      rw [hih]
      rfl

/-! ## Inverse round-trip: re-encoding a decoded blob -/

/-- Splitting a blob suffix into a 4-byte header, a body ending at `e`, and
the remainder from `e` on. -/
theorem drop_decomp (blob : List Nat) (i e : Nat) (h4 : i + 4 ≤ e) :
    blob.drop i =
      (blob.drop i).take 4 ++
        ((blob.drop (i + 4)).take (e - (i + 4)) ++ blob.drop e) := by
  conv_lhs => rw [← List.take_append_drop 4 (blob.drop i)]
  rw [List.drop_drop]
  congr 1
  conv_lhs => rw [← List.take_append_drop (e - (i + 4)) (blob.drop (i + 4))]
  rw [List.drop_drop]
  congr 2
  omega

/-- Reconstructing the header bytes: if all blob entries are bytes, encoding
the header value read at `i` gives back the 4 raw bytes at `i`. -/
theorem u32_to_ne_header_at (blob : List Nat) (i : Nat)
    (hbyte : ∀ b ∈ blob, b < 256) (h2 : i + 4 ≤ blob.length) :
    u32_to_ne_bytes (header_at blob i) = (blob.drop i).take 4 := by
  have hlen : ((blob.drop i).take 4).length = 4 := by
    rw [List.length_take, List.length_drop]; omega
  obtain ⟨b0, b1, b2, b3, hb⟩ := four_bytes_eq _ hlen
  have hmem : ∀ b ∈ [b0, b1, b2, b3], b < 256 := by
    intro b hbm
    exact hbyte b (List.mem_of_mem_drop (List.mem_of_mem_take (hb ▸ hbm)))
  rw [header_at, hb]
  exact u32_to_from_ne_bytes b0 b1 b2 b3
    (hmem b0 (by simp)) (hmem b1 (by simp)) (hmem b2 (by simp)) (hmem b3 (by simp))

theorem blobAppend_readSlices (blob : List Nat) (hbyte : ∀ b ∈ blob, b < 256) :
    ∀ n i arrs, blob.length - i ≤ n →
    readSlices blob i = some (Except.ok arrs) →
    blobAppend i arrs = blob.drop i := by
  intro n
  induction n with
  | zero =>
      intro i arrs h hok
      rw [readSlices_exit blob i (by omega)] at hok
      obtain rfl : arrs = [] := by simpa using hok.symm
      rw [blobAppend, List.drop_eq_nil_of_le (by omega)]
  | succ n ih =>
      intro i arrs h hok
      by_cases h1 : i < blob.length
      · by_cases h2 : i + 4 ≤ blob.length
        · by_cases h3 : header_at blob i > blob.length ∨ header_at blob i < i + 4
          · rw [readSlices_invalid blob i h1 h2 h3] at hok
            simp at hok
          · rw [readSlices_cont blob i h1 h2 h3] at hok
            push_neg at h3
            obtain ⟨hup, hlo⟩ := h3
            cases hr : readSlices blob (header_at blob i) with
            | none => rw [hr] at hok; exact Option.noConfusion hok
            | some r =>
                cases r with
                | error e => rw [hr] at hok; simp [Except.map] at hok
                | ok rest =>
                    rw [hr] at hok
                    simp only [Option.map_some', Except.map, Option.some.injEq,
                      Except.ok.injEq] at hok
                    have hrec := ih (header_at blob i) rest (by omega) hr
                    have hslicelen :
                        ((blob.drop (i + 4)).take (header_at blob i - (i + 4))).length =
                          header_at blob i - (i + 4) := by
                      rw [List.length_take, List.length_drop]
                      omega
                    subst hok
                    simp only [blobAppend, hslicelen]
                    have hE : i + 4 + (header_at blob i - (i + 4)) = header_at blob i := by
                      omega
                    rw [hE, hrec, u32_to_ne_header_at blob i hbyte h2,
                      List.append_assoc]
                    exact (drop_decomp blob i (header_at blob i) hlo).symm
        · rw [readSlices_panic blob i h1 h2] at hok
          exact Option.noConfusion hok
      · rw [readSlices_exit blob i h1] at hok
        obtain rfl : arrs = [] := by simpa using hok.symm
        rw [blobAppend, List.drop_eq_nil_of_le (by omega)]

/-! ## Counting loop iterations -/

theorem loopIters_exit (blob : List Nat) (i : Nat) (h : ¬ i < blob.length) :
    loopIters blob i = 0 := by
  rw [loopIters.eq_def, if_neg h]

theorem loopIters_panic (blob : List Nat) (i : Nat) (h1 : i < blob.length)
    (h2 : ¬ i + 4 ≤ blob.length) :
    loopIters blob i = 1 := by
  rw [loopIters.eq_def, if_pos h1, if_neg h2]

theorem loopIters_invalid (blob : List Nat) (i : Nat) (h1 : i < blob.length)
    (h2 : i + 4 ≤ blob.length)
    (h3 : header_at blob i > blob.length ∨ header_at blob i < i + 4) :
    loopIters blob i = 1 := by
  rw [loopIters.eq_def, if_pos h1, if_pos h2]
  exact if_pos h3

theorem loopIters_cont (blob : List Nat) (i : Nat) (h1 : i < blob.length)
    (h2 : i + 4 ≤ blob.length)
    (h3 : ¬ (header_at blob i > blob.length ∨ header_at blob i < i + 4)) :
    loopIters blob i = 1 + loopIters blob (header_at blob i) := by
  rw [loopIters.eq_def, if_pos h1, if_pos h2]
  exact if_neg h3

theorem loopIters_le (blob : List Nat) : ∀ n i, blob.length - i ≤ n →
    loopIters blob i ≤ (blob.length - i) / 4 + 1 := by
  intro n
  induction n with
  | zero =>
      intro i h
      rw [loopIters_exit blob i (by omega)]
      omega
  | succ n ih =>
      intro i h
      by_cases h1 : i < blob.length
      · by_cases h2 : i + 4 ≤ blob.length
        · by_cases h3 : header_at blob i > blob.length ∨ header_at blob i < i + 4
          · rw [loopIters_invalid blob i h1 h2 h3]
            omega
          · rw [loopIters_cont blob i h1 h2 h3]
            push_neg at h3
            obtain ⟨hup, hlo⟩ := h3
            have hrec := ih (header_at blob i) (by omega)
            omega
        · rw [loopIters_panic blob i h1 h2]
          omega
      · rw [loopIters_exit blob i h1]
        omega

theorem loopIters_ok (blob : List Nat) : ∀ n i arrs, blob.length - i ≤ n →
    readSlices blob i = some (Except.ok arrs) →
    loopIters blob i = arrs.length := by
  intro n
  induction n with
  | zero =>
      intro i arrs h hok
      rw [readSlices_exit blob i (by omega)] at hok
      obtain rfl : arrs = [] := by simpa using hok.symm
      rw [loopIters_exit blob i (by omega)]
      rfl
  | succ n ih =>
      intro i arrs h hok
      by_cases h1 : i < blob.length
      · by_cases h2 : i + 4 ≤ blob.length
        · by_cases h3 : header_at blob i > blob.length ∨ header_at blob i < i + 4
          · rw [readSlices_invalid blob i h1 h2 h3] at hok
            simp at hok
          · rw [readSlices_cont blob i h1 h2 h3] at hok
            push_neg at h3
            obtain ⟨hup, hlo⟩ := h3
            cases hr : readSlices blob (header_at blob i) with
            | none => rw [hr] at hok; exact Option.noConfusion hok
            | some r =>
                cases r with
                | error e => rw [hr] at hok; simp [Except.map] at hok
                | ok rest =>
                    rw [hr] at hok
                    simp only [Option.map_some', Except.map, Option.some.injEq,
                      Except.ok.injEq] at hok
                    have hrec := ih (header_at blob i) rest (by omega) hr
                    rw [loopIters_cont blob i h1 h2 (by push_neg; omega), hrec, ← hok]
                    simp only [List.length_cons]
                    omega
        · rw [readSlices_panic blob i h1 h2] at hok
          exact Option.noConfusion hok
      · rw [readSlices_exit blob i h1] at hok
        obtain rfl : arrs = [] := by simpa using hok.symm
        rw [loopIters_exit blob i h1]
        rfl

/-! ## Claim theorems -/

/-- C1: for every ordered sequence of byte buffers (including the empty
sequence and buffers of length 0) whose encoded total size fits the 32-bit
header range, decoding the result of encoding it returns `Ok` of the same
sequence of buffers, element-wise and in order. -/
theorem C1_round_trip (bytes_2d : List (List Nat))
    (h : (byte_arrays_to_blob bytes_2d).length ≤ u32MAX) :
    blob_to_byte_arrays (byte_arrays_to_blob bytes_2d) =
      some (Except.ok bytes_2d) := by
  rw [blob_to_byte_arrays, if_neg (by omega)]
  have h0 : ((([] : List Nat)) ++
      blobAppend (List.length ([] : List Nat)) bytes_2d).length ≤ u32MAX := by
    simpa [byte_arrays_to_blob] using h
  have hmain := readSlices_blobAppend bytes_2d [] h0
  simpa [byte_arrays_to_blob] using hmain

/-- Witness for C1 at the sequence `[[1,2,3,4,5], [], [7,7]]`, which contains
a zero-length buffer. -/
theorem C1_round_trip_witness :
    (byte_arrays_to_blob [[1, 2, 3, 4, 5], [], [7, 7]]).length ≤ u32MAX ∧
    blob_to_byte_arrays (byte_arrays_to_blob [[1, 2, 3, 4, 5], [], [7, 7]]) =
      some (Except.ok [[1, 2, 3, 4, 5], [], [7, 7]]) :=
  ⟨by decide, C1_round_trip [[1, 2, 3, 4, 5], [], [7, 7]] (by decide)⟩

/-- C2: the claim says a truncated header (fewer than 4 bytes remaining where
a header is expected) yields a typed `BlobReadError`; the source instead takes
the unchecked slice `blob[idx_start..idx_start+4]` and panics, modelled by
`none`: on the 1-byte blob `[1]` decoding aborts rather than returning an
error. -/
theorem C2_truncated_header_panics : blob_to_byte_arrays [1] = none := by
  simp [blob_to_byte_arrays, readSlices, u32MAX]

/-- C3: once a 4-byte header is successfully read at position `i`, the loop
returns `InvalidEncodedIndex` carrying the raw header value exactly when that
value exceeds the blob length or is below `i + 4` (the position just after the
header); otherwise this step adds no error and decoding continues at the
header value.  In particular `decode [255,255,255,255]` fails with
`InvalidEncodedIndex 4294967295`, and a later header smaller than an earlier
one fails at the first offending frame. -/
theorem C3_invalid_encoded_index :
    (∀ blob : List Nat, blob.length ≤ u32MAX →
      blob_to_byte_arrays blob = readSlices blob 0) ∧
    (∀ (blob : List Nat) (i : Nat), blob.length ≤ u32MAX →
      i < blob.length → i + 4 ≤ blob.length →
      ((header_at blob i > blob.length ∨ header_at blob i < i + 4) →
        readSlices blob i =
          some (Except.error (BlobReadError.InvalidEncodedIndex (header_at blob i)))) ∧
      (¬ (header_at blob i > blob.length ∨ header_at blob i < i + 4) →
        readSlices blob i =
          Option.map
            (Except.map
              (List.cons ((blob.drop (i + 4)).take (header_at blob i - (i + 4)))))
            (readSlices blob (header_at blob i)))) ∧
    blob_to_byte_arrays [255, 255, 255, 255] =
      some (Except.error (BlobReadError.InvalidEncodedIndex 4294967295)) ∧
    blob_to_byte_arrays [8, 0, 0, 0, 1, 2, 3, 4, 4, 0, 0, 0] =
      some (Except.error (BlobReadError.InvalidEncodedIndex 4)) := by
  refine ⟨?_, ?_, ?_, ?_⟩
  · intro blob h
    rw [blob_to_byte_arrays, if_neg (by omega)]
  · intro blob i hmax h1 h2
    exact ⟨readSlices_invalid blob i h1 h2, readSlices_cont blob i h1 h2⟩
  · simp [blob_to_byte_arrays, readSlices, u32MAX, header_at, u32_from_ne_bytes]
  · simp [blob_to_byte_arrays, readSlices, u32MAX, header_at, u32_from_ne_bytes]

/-- Witness for C3 at the blob `[255,255,255,255]` and position 0. -/
theorem C3_invalid_encoded_index_witness :
    readSlices [255, 255, 255, 255] 0 =
      some (Except.error (BlobReadError.InvalidEncodedIndex 4294967295)) := by
  have h := (C3_invalid_encoded_index.2.1 [255, 255, 255, 255] 0 (by decide)
    (by decide) (by decide)).1 (by decide)
  simpa [header_at, u32_from_ne_bytes] using h

/-- C4: the encoded blob length equals the sum of the input buffer lengths
plus 4 bytes per buffer. -/
theorem C4_size_law (bytes_2d : List (List Nat)) :
    (byte_arrays_to_blob bytes_2d).length =
      (bytes_2d.map List.length).sum + 4 * bytes_2d.length := by
  rw [byte_arrays_to_blob]
  exact blobAppend_length bytes_2d 0

/-- C5: decoding returns `TooLarge` exactly when the blob length exceeds
`u32::MAX`; the loop itself never produces `TooLarge`, so no other error is
produced first for oversize inputs. -/
theorem C5_too_large (blob : List Nat) :
    blob_to_byte_arrays blob = some (Except.error BlobReadError.TooLarge) ↔
      blob.length > u32MAX := by
  constructor
  · intro h
    by_contra hlen
    rw [blob_to_byte_arrays, if_neg hlen] at h
    exact readSlices_ne_tooLarge blob blob.length 0 (by omega) h
  · intro h
    rw [blob_to_byte_arrays, if_pos h]

/-- C6: on any successful decode of a non-empty blob, 4 bytes per returned
slice plus the slice lengths account for the whole blob, i.e. the final frame
ends exactly at the blob length. -/
theorem C6_full_consumption (blob : List Nat) (arrs : List (List Nat))
    (_hne : blob ≠ [])
    (hok : blob_to_byte_arrays blob = some (Except.ok arrs)) :
    4 * arrs.length + (arrs.map List.length).sum = blob.length := by
  rw [blob_to_byte_arrays] at hok
  by_cases hlen : blob.length > u32MAX
  · rw [if_pos hlen] at hok
    simp at hok
  · rw [if_neg hlen] at hok
    have := readSlices_ok_length blob blob.length 0 arrs (by omega) (by omega) hok
    omega

/-- Witness for C6 at the single-frame blob `[8,0,0,0,255,0,0,0]`. -/
theorem C6_full_consumption_witness :
    ([8, 0, 0, 0, 255, 0, 0, 0] : List Nat) ≠ [] ∧
    4 * ([[255, 0, 0, 0]] : List (List Nat)).length +
        (([[255, 0, 0, 0]] : List (List Nat)).map List.length).sum =
      ([8, 0, 0, 0, 255, 0, 0, 0] : List Nat).length :=
  ⟨by decide, C6_full_consumption [8, 0, 0, 0, 255, 0, 0, 0] [[255, 0, 0, 0]]
    (by decide)
    (by simp [blob_to_byte_arrays, readSlices, u32MAX, header_at, u32_from_ne_bytes])⟩

/-- C7: the empty blob decodes to `Ok` of the empty sequence, not an error. -/
theorem C7_empty_blob : blob_to_byte_arrays [] = some (Except.ok []) := by
  simp [blob_to_byte_arrays, readSlices, u32MAX]

/-- C8: the 8-byte blob `[8,0,0,0,255,0,0,0]` decodes to exactly one buffer
`[255,0,0,0]`, the first 4 bytes being a native-endian `u32` header with
value 8, the total blob length. -/
theorem C8_minimal_frame :
    blob_to_byte_arrays [8, 0, 0, 0, 255, 0, 0, 0] =
      some (Except.ok [[255, 0, 0, 0]]) ∧
    header_at [8, 0, 0, 0, 255, 0, 0, 0] 0 = 8 := by
  constructor
  · simp [blob_to_byte_arrays, readSlices, u32MAX, header_at, u32_from_ne_bytes]
  · decide

/-- C9 counterexample: on the 1-byte blob `[1]` the decoder loop body runs
once (entering the unchecked header read), but `len(blob) / 4 = 0`, so the
claimed bound of `len(blob) / 4` iterations fails. -/
theorem C9_counterexample :
    ¬ (loopIters [1] 0 ≤ ([1] : List Nat).length / 4) := by
  rw [loopIters_panic [1] 0 (by decide) (by decide)]
  decide

/-- C9 (amended): the decoder loop always terminates, within
`len(blob) / 4 + 1` iterations of the loop body; on a successful decode the
number of iterations equals the number of returned frames, which is at most
`len(blob) / 4` (the extra possible iteration is a final one that errors or
hits a truncated header without completing a frame). -/
theorem C9_termination_bound :
    (∀ blob : List Nat, loopIters blob 0 ≤ blob.length / 4 + 1) ∧
    (∀ (blob : List Nat) (arrs : List (List Nat)),
      blob_to_byte_arrays blob = some (Except.ok arrs) →
      loopIters blob 0 = arrs.length ∧ arrs.length ≤ blob.length / 4) := by
  constructor
  · intro blob
    have := loopIters_le blob blob.length 0 (by omega)
    simpa using this
  · intro blob arrs hok
    rw [blob_to_byte_arrays] at hok
    by_cases hlen : blob.length > u32MAX
    · rw [if_pos hlen] at hok
      simp at hok
    · rw [if_neg hlen] at hok
      have hcount := loopIters_ok blob blob.length 0 arrs (by omega) hok
      have hsum := readSlices_ok_length blob blob.length 0 arrs (by omega) (by omega) hok
      exact ⟨hcount, by omega⟩

/-- Witness for the amended C9 at the blob `[8,0,0,0,255,0,0,0]`. -/
theorem C9_termination_bound_witness :
    loopIters [8, 0, 0, 0, 255, 0, 0, 0] 0 ≤
      ([8, 0, 0, 0, 255, 0, 0, 0] : List Nat).length / 4 + 1 ∧
    (loopIters [8, 0, 0, 0, 255, 0, 0, 0] 0 = 1 ∧
      (1 : Nat) ≤ ([8, 0, 0, 0, 255, 0, 0, 0] : List Nat).length / 4) := by
  refine ⟨C9_termination_bound.1 [8, 0, 0, 0, 255, 0, 0, 0], ?_⟩
  have h := C9_termination_bound.2 [8, 0, 0, 0, 255, 0, 0, 0] [[255, 0, 0, 0]]
    (by simp [blob_to_byte_arrays, readSlices, u32MAX, header_at, u32_from_ne_bytes])
  simpa using h

/-- C10: whenever decoding succeeds, re-encoding the returned slices
reproduces the original blob byte for byte: decode succeeds only on exact
images of the encoder. -/
theorem C10_inverse_round_trip (blob : List Nat) (arrs : List (List Nat))
    (hbyte : ∀ b ∈ blob, b < 256)
    (hok : blob_to_byte_arrays blob = some (Except.ok arrs)) :
    byte_arrays_to_blob arrs = blob := by
  rw [blob_to_byte_arrays] at hok
  by_cases hlen : blob.length > u32MAX
  · rw [if_pos hlen] at hok
    simp at hok
  · rw [if_neg hlen] at hok
    have := blobAppend_readSlices blob hbyte blob.length 0 arrs (by omega) hok
    simpa [byte_arrays_to_blob] using this

/-- Witness for C10 at the blob `[8,0,0,0,255,0,0,0]`. -/
theorem C10_inverse_round_trip_witness :
    (∀ b ∈ ([8, 0, 0, 0, 255, 0, 0, 0] : List Nat), b < 256) ∧
    byte_arrays_to_blob [[255, 0, 0, 0]] = [8, 0, 0, 0, 255, 0, 0, 0] :=
  ⟨by decide, C10_inverse_round_trip [8, 0, 0, 0, 255, 0, 0, 0] [[255, 0, 0, 0]]
    (by decide)
    (by simp [blob_to_byte_arrays, readSlices, u32MAX, header_at, u32_from_ne_bytes])⟩

end ByteArrayBlob
